import Mathlib

/-
Verification of the natural-language specification of the restinio
async handler-chain core (dev/restinio/async_chain/common.hpp) and of
the sample application's book parser (dev/sample/express_router/main.cpp).

The async-chain core is embedded shallowly:

* `schedule_result_t`, `on_next_result_t` and the driver `next` (together
  with the two response helpers inside namespace `impl` of the source)
  are translated directly from `common.hpp`.
* The concrete chain controllers (fixed-size and growable chains) and the
  user-supplied handlers are NOT part of the shown source fragment; they
  are modelled from the spec (see the doc comments of
  `async_handling_controller_t` and `handler_behavior_t`).
* A `std::unique_ptr` is modelled by `Option`: `none` is the null /
  moved-from pointer, and every dereference of a controller pointer goes
  through the `Option`, so a use-after-move would make the driver return
  `none`.  The observable actions of the core (invoking a handler,
  sending a response through a request handle) are recorded in a trace of
  `ChainEvent`s.
-/

set_option autoImplicit false

namespace Restinio.AsyncChain

variable {Req : Type}

/-- Mirrors `restinio::async_chain::schedule_result_t`: the result of an
async handler's attempt to schedule the actual processing of a request. -/
inductive schedule_result_t where
  | ok
  | failure
deriving DecidableEq

/-- Mirrors the helper `restinio::async_chain::ok()`. -/
def ok : schedule_result_t := schedule_result_t.ok

/-- Mirrors the helper `restinio::async_chain::failure()`. -/
def failure : schedule_result_t := schedule_result_t.failure

/-- Modelled from the spec: the response status vocabulary is an external
collaborator (the restinio status helpers `status_not_found()` and
`status_internal_server_error()` are not part of the shown fragment).
The spec says the driver needs exactly two well-known status values,
"not found / no handler" and "internal server error"; they are modelled
by the standard HTTP status codes. -/
def status_not_found : Nat := 404

/-- Modelled from the spec: the "internal server error" status value,
see `status_not_found`. -/
def status_internal_server_error : Nat := 500

/-- Modelled from the spec: the observable behavior of a user-supplied
async handler (a `generic_async_request_handler_t` value, which is an
opaque `std::function` in the source).  Per the spec's handler contract a
handler either
* `completes`: returns `ok`, having taken over responsibility for the
  request (it schedules work or answers directly; it does not re-enter
  the driver);
* `declines`: synchronously re-enters the driver `next` with the advanced
  controller that was moved into it and then returns `ok` (the spec's
  "re-entrant pass-through"); or
* `failsToSchedule`: returns `failure` without having produced a response
  and without re-entering the driver (per the spec's handler invariant a
  handler returning `failure` has produced no response). -/
inductive handler_behavior_t where
  | completes
  | declines
  | failsToSchedule
deriving DecidableEq

/-- Modelled from the spec: a concrete chain controller
(`async_handling_controller_t` is only an abstract interface in the shown
fragment; the spec says a controller is logically a pair of the request
handle and a position within the ordered handler sequence). -/
structure async_handling_controller_t (Req : Type) where
  request_handle : Req
  chain : List handler_behavior_t
  pos : Nat
deriving DecidableEq

/-- Mirrors `unique_async_handling_controller_t`, i.e.
`std::unique_ptr<async_handling_controller_t>`: `none` models the null or
moved-from pointer. -/
def unique_async_handling_controller_t (Req : Type) : Type :=
  Option (async_handling_controller_t Req)

/-- Mirrors `on_next_result_t = std::variant<handler, no_more_handlers_t>`.
The `handler` variant carries the handler that `on_next` selected
(modelled by its behavior); `no_more_handlers` mirrors the empty struct
`no_more_handlers_t`. -/
inductive on_next_result_t where
  | handler (b : handler_behavior_t)
  | no_more_handlers
deriving DecidableEq

/-- Modelled from the spec: the controller's `on_next()`.  It advances the
internal position by exactly one step and returns the handler previously
at that position, or the exhaustion marker once the position is past the
end of the handler sequence.  The C++ method mutates the controller in
place; the model returns the result together with the updated
controller. -/
def on_next (c : async_handling_controller_t Req) :
    on_next_result_t × async_handling_controller_t Req :=
  match c.chain[c.pos]? with
  | some b => (on_next_result_t.handler b, { c with pos := c.pos + 1 })
  | none => (on_next_result_t.no_more_handlers, c)

/-- Observable actions performed during one chain traversal: the
invocation of the handler at a given chain index, and a call of a
response-producing operation (`req->create_response(status).done()`) on a
request handle. -/
inductive ChainEvent (Req : Type) where
  | handlerInvoked (idx : Nat)
  | responseSent (req : Req) (status : Nat)
deriving DecidableEq

/-- Mirrors `impl::make_not_implemented_response`: despite its name, the
function sends `status_not_found()` on the given request handle. -/
def make_not_implemented_response (req : Req) : List (ChainEvent Req) :=
  [ChainEvent.responseSent req status_not_found]

/-- Mirrors `impl::make_internal_server_error_response`: sends
`status_internal_server_error()` on the given request handle. -/
def make_internal_server_error_response (req : Req) : List (ChainEvent Req) :=
  [ChainEvent.responseSent req status_internal_server_error]

mutual

/-- Mirrors `restinio::async_chain::next`:
`std::visit(impl::on_next_result_visitor_t{controller}, controller->on_next())`,
with the two branches of `impl::on_next_result_visitor_t::operator()`
inlined at the corresponding match arms.  In the handler branch the
request handle is captured from the controller before the handler is
invoked (`const auto req = m_controller->request_handle();`), then the
handler is invoked with the controller moved into it, and only the
captured `req` is used afterwards to build the internal-server-error
response on `failure`.  In the exhausted branch the handle is read from
the still-owned controller.  The result is `none` exactly when a null
controller pointer would have been dereferenced. -/
def next (slot : unique_async_handling_controller_t Req) :
    Option (List (ChainEvent Req)) :=
  match slot with
  | none => none
  | some c =>
    match hON : on_next c with
    | (on_next_result_t.handler b, c') =>
      let req := c'.request_handle
      match invoke_handler c.pos b c' with
      | none => none
      | some (trace, schedule_result_t.ok) => some trace
      | some (trace, schedule_result_t.failure) =>
          some (trace ++ make_internal_server_error_response req)
    | (on_next_result_t.no_more_handlers, c') =>
      some (make_not_implemented_response c'.request_handle)
termination_by
  match slot with
  | none => 0
  | some c => 2 * (c.chain.length - c.pos)
decreasing_by
  simp only [on_next] at hON
  split at hON
  case _ b2 heq =>
    injection hON with h1 h2
    injection h1 with h3
    subst h2
    have hs : c.pos < c.chain.length := (List.getElem?_eq_some.mp heq).1
    simp only
    omega
  case _ heq =>
    injection hON with h1 h2
    exact on_next_result_t.noConfusion h1

/-- Modelled from the spec: invocation of the handler selected by
`on_next` at chain index `idx`, with the advanced controller `c` moved
into it.  The handler's own actions are interpreted from its behavior; a
`declines` handler synchronously re-enters the driver `next` with the
controller it owns. -/
def invoke_handler (idx : Nat) (b : handler_behavior_t)
    (c : async_handling_controller_t Req) :
    Option (List (ChainEvent Req) × schedule_result_t) :=
  match b with
  | handler_behavior_t.completes =>
      some ([ChainEvent.handlerInvoked idx], schedule_result_t.ok)
  | handler_behavior_t.declines =>
      match next (some c) with
      | none => none
      | some trace =>
          some (ChainEvent.handlerInvoked idx :: trace, schedule_result_t.ok)
  | handler_behavior_t.failsToSchedule =>
      some ([ChainEvent.handlerInvoked idx], schedule_result_t.failure)
termination_by 2 * (c.chain.length - c.pos) + 1
decreasing_by
  omega

end

/-- Tests whether a trace event is a response-producing operation on a
request handle. -/
def isResponseEvent : ChainEvent Req → Bool
  | ChainEvent.responseSent _ _ => true
  | _ => false

/-- Number of response-producing operations recorded in a trace. -/
def responseCount (t : List (ChainEvent Req)) : Nat :=
  t.countP isResponseEvent

end Restinio.AsyncChain

namespace Sample

/-
Embedding of `sample::deserialize` from dev/sample/express_router/main.cpp.
C++ strings and string_views are modelled as `List Char`; a thrown
`std::runtime_error` is modelled as the result `none`.
-/

/-- Mirrors the constant `author_tag` of `sample::deserialize`. -/
def author_tag : List Char := ['a', 'u', 't', 'h', 'o', 'r', ':']

/-- Mirrors the constant `title_tag` of `sample::deserialize`. -/
def title_tag : List Char := ['t', 'i', 't', 'l', 'e', ':']

/-- Mirrors the constant `separator` of `sample::deserialize`. -/
def separator : List Char := [';', ';', ';']

/-- Models `std::string_view::find(pat)` on a view: the index of the
first position at which `pat` occurs, `none` standing for `npos`. -/
def sv_find (pat : List Char) : List Char → Option Nat
  | [] => if pat.isPrefixOf [] then some 0 else none
  | c :: rest =>
      if pat.isPrefixOf (c :: rest) then some 0
      else (sv_find pat rest).map (fun k => k + 1)

/-- Mirrors `sample::book_t` (the two string members). -/
structure book_t where
  m_author : List Char
  m_title : List Char
deriving DecidableEq

/-- Mirrors `sample::deserialize`.  Each C++ `throw` is the result
`none`; the branch structure follows the source line by line (the source
tests `tag != body.substr(0, tag.size())` and throws, so the model
continues on equality).  `body.substr(0, k)` is `List.take k` (both clamp
to the length) and the guarded `body.substr(k)` is `List.drop k`. -/
def deserialize (body0 : List Char) : Option book_t :=
  if author_tag = body0.take author_tag.length then
    let body1 := body0.drop author_tag.length
    match sv_find separator body1 with
    | none => none
    | some n =>
      if n = 0 then none
      else
        let body2 := body1.drop (n + separator.length)
        if title_tag = body2.take title_tag.length then
          let body3 := body2.drop title_tag.length
          if body3 = [] then none
          else
            match sv_find separator body3 with
            | none => some { m_author := body1.take n, m_title := body3 }
            | some m =>
              if m = 0 then none
              else
                let body4 := body3.drop (m + separator.length)
                if body4 = [] then
                  some { m_author := body1.take n, m_title := body3.take m }
                else none
        else none
  else none

/-- The exact acceptance shape of `deserialize`, as proved by
`deserialize_characterization`: the body is
`author:` ++ A ++ `;;;` ++ `title:` ++ T, optionally followed by exactly
one trailing `;;;`, where both fields are non-empty and contain no
`;;;`, the author field does not end with `';'`, and in the
trailing-separator shape the title field does not end with `';'` either
(a trailing `';'` would make the first `;;;` occurrence straddle the
field boundary and parsing fail). -/
def accepted_form (body A T : List Char) : Prop :=
  A ≠ [] ∧ T ≠ [] ∧ ¬ separator <:+: A ∧ A.getLast? ≠ some ';' ∧
    ¬ separator <:+: T ∧
    (body = author_tag ++ A ++ separator ++ title_tag ++ T ∨
      (body = author_tag ++ A ++ separator ++ title_tag ++ T ++ separator ∧
        T.getLast? ≠ some ';'))

end Sample

namespace Restinio.AsyncChain

variable {Req : Type}

/-- Unfolding equation for the driver on the exhausted path. -/
theorem next_eq_exhausted (c : async_handling_controller_t Req)
    (h : c.chain[c.pos]? = none) :
    next (some c) = some [ChainEvent.responseSent c.request_handle status_not_found] := by
  rw [next]
  split
  · rename_i b c' hON
    rw [on_next, h] at hON
    exact absurd (congrArg Prod.fst hON) (by simp)
  · rename_i c' hON
    rw [on_next, h] at hON
    injection hON with h1 h2
    subst h2
    rfl

/-- Unfolding equation for the driver on the handler path. -/
theorem next_eq_handler (c : async_handling_controller_t Req) (b : handler_behavior_t)
    (h : c.chain[c.pos]? = some b) :
    next (some c) =
      match invoke_handler c.pos b { c with pos := c.pos + 1 } with
      | none => none
      | some (trace, schedule_result_t.ok) => some trace
      | some (trace, schedule_result_t.failure) =>
          some (trace ++ [ChainEvent.responseSent c.request_handle status_internal_server_error]) := by
  rw [next]
  split
  · rename_i b' c' hON
    rw [on_next, h] at hON
    injection hON with h1 h2
    injection h1 with hb
    subst hb
    subst h2
    rfl
  · rename_i c' hON
    rw [on_next, h] at hON
    exact absurd (congrArg Prod.fst hON) (by simp)

/-- The driver never dereferences a moved-from controller pointer: on any
valid (non-null) controller it completes with a trace.  Bounded version
used for induction. -/
theorem next_isSome_aux (n : Nat) :
    ∀ c : async_handling_controller_t Req, c.chain.length - c.pos ≤ n →
      ∃ t, next (some c) = some t := by
  induction n with
  | zero =>
    intro c hn
    cases hx : c.chain[c.pos]? with
    | none => exact ⟨_, next_eq_exhausted c hx⟩
    | some b =>
      have := (List.getElem?_eq_some.mp hx).1
      omega
  | succ n ih =>
    intro c hn
    cases hx : c.chain[c.pos]? with
    | none => exact ⟨_, next_eq_exhausted c hx⟩
    | some b =>
      have hlt := (List.getElem?_eq_some.mp hx).1
      rw [next_eq_handler c b hx]
      cases b with
      | completes =>
        exact ⟨[ChainEvent.handlerInvoked c.pos], by simp [invoke_handler]⟩
      | failsToSchedule =>
        exact ⟨[ChainEvent.handlerInvoked c.pos,
          ChainEvent.responseSent c.request_handle status_internal_server_error],
          by simp [invoke_handler]⟩
      | declines =>
        obtain ⟨t, ht⟩ := ih { c with pos := c.pos + 1 } (by simp; omega)
        exact ⟨ChainEvent.handlerInvoked c.pos :: t, by simp [invoke_handler, ht]⟩

/-- The driver never dereferences a moved-from controller pointer. -/
theorem next_isSome (c : async_handling_controller_t Req) :
    ∃ t, next (some c) = some t :=
  next_isSome_aux (c.chain.length - c.pos) c le_rfl

/-- Handler invocation always completes with a trace and a schedule
result (no null dereference inside the handler's re-entrant call). -/
theorem invoke_handler_isSome (idx : Nat) (b : handler_behavior_t)
    (c : async_handling_controller_t Req) :
    ∃ tr res, invoke_handler idx b c = some (tr, res) := by
  cases b with
  | completes =>
    exact ⟨[ChainEvent.handlerInvoked idx], schedule_result_t.ok, by simp [invoke_handler]⟩
  | failsToSchedule =>
    exact ⟨[ChainEvent.handlerInvoked idx], schedule_result_t.failure,
      by simp [invoke_handler]⟩
  | declines =>
    obtain ⟨t, ht⟩ := next_isSome c
    exact ⟨ChainEvent.handlerInvoked idx :: t, schedule_result_t.ok,
      by simp [invoke_handler, ht]⟩

/-- Every response-producing operation in a driver trace targets the
request handle of the controller the driver was entered with, and its
status is one of the two well-known values.  Moreover the trace contains
at most one response-producing operation.  Bounded version used for
induction. -/
theorem next_responses_aux (n : Nat) :
    ∀ (c : async_handling_controller_t Req) (t : List (ChainEvent Req)),
      c.chain.length - c.pos ≤ n → next (some c) = some t →
      responseCount t ≤ 1 ∧
        ∀ r s, ChainEvent.responseSent r s ∈ t →
          r = c.request_handle ∧
            (s = status_not_found ∨ s = status_internal_server_error) := by
  induction n with
  | zero =>
    intro c t hn ht
    cases hx : c.chain[c.pos]? with
    | none =>
      rw [next_eq_exhausted c hx] at ht
      injection ht with ht
      subst ht
      refine ⟨by simp [responseCount, isResponseEvent], ?_⟩
      intro r s hm
      simp at hm
      exact ⟨hm.1, Or.inl hm.2⟩
    | some b =>
      have := (List.getElem?_eq_some.mp hx).1
      omega
  | succ n ih =>
    intro c t hn ht
    cases hx : c.chain[c.pos]? with
    | none =>
      rw [next_eq_exhausted c hx] at ht
      injection ht with ht
      subst ht
      refine ⟨by simp [responseCount, isResponseEvent], ?_⟩
      intro r s hm
      simp at hm
      exact ⟨hm.1, Or.inl hm.2⟩
    | some b =>
      have hlt := (List.getElem?_eq_some.mp hx).1
      rw [next_eq_handler c b hx] at ht
      cases b with
      | completes =>
        simp only [invoke_handler] at ht
        injection ht with ht
        subst ht
        refine ⟨by simp [responseCount, isResponseEvent], ?_⟩
        intro r s hm
        simp at hm
      | failsToSchedule =>
        simp only [invoke_handler] at ht
        injection ht with ht
        subst ht
        refine ⟨by simp [responseCount, isResponseEvent, List.countP_cons], ?_⟩
        intro r s hm
        simp at hm
        exact ⟨hm.1, Or.inr hm.2⟩
      | declines =>
        obtain ⟨t', ht'⟩ := next_isSome ({ c with pos := c.pos + 1 } :
          async_handling_controller_t Req)
        rw [show invoke_handler c.pos handler_behavior_t.declines
              { c with pos := c.pos + 1 } =
            some (ChainEvent.handlerInvoked c.pos :: t', schedule_result_t.ok) from
          by simp [invoke_handler, ht']] at ht
        injection ht with ht
        subst ht
        obtain ⟨ihc, ihm⟩ := ih { c with pos := c.pos + 1 } t' (by simp; omega) ht'
        constructor
        · simpa [responseCount, isResponseEvent, List.countP_cons] using ihc
        · intro r s hm
          simp only [List.mem_cons] at hm
          rcases hm with hm | hm
          · exact absurd hm (by simp)
          · exact ihm r s hm

/-- Two distinct members of a list that both satisfy a predicate make the
predicate count at least two. -/
theorem two_le_countP_of_mem {α : Type} (p : α → Bool) (l : List α) (a b : α)
    (ha : a ∈ l) (hb : b ∈ l) (hne : a ≠ b) (hpa : p a = true) (hpb : p b = true) :
    2 ≤ l.countP p := by
  induction l with
  | nil => simp at ha
  | cons x xs ih =>
    rw [List.countP_cons]
    rcases List.mem_cons.mp ha with h1 | h1
    · rcases List.mem_cons.mp hb with h2 | h2
      · exact absurd (h1.trans h2.symm) hne
      · have hc : 0 < xs.countP p := List.countP_pos.mpr ⟨b, h2, hpb⟩
        subst h1
        rw [hpa]
        simp only [if_true]
        omega
    · rcases List.mem_cons.mp hb with h2 | h2
      · have hc : 0 < xs.countP p := List.countP_pos.mpr ⟨a, h1, hpa⟩
        subst h2
        rw [hpb]
        simp only [if_true]
        omega
      · have := ih h1 h2
        omega

/-- For a block of synchronously declining handlers followed by one that
completes, the driver trace is exactly the in-order invocation of the
handlers from the current position through the completing one, with no
response-producing operation. -/
theorem next_declines_then_completes (d : Nat) :
    ∀ c : async_handling_controller_t Req,
      (∀ j, c.pos ≤ j → j < c.pos + d →
        c.chain[j]? = some handler_behavior_t.declines) →
      c.chain[c.pos + d]? = some handler_behavior_t.completes →
      next (some c) =
        some ((List.range' c.pos (d + 1)).map ChainEvent.handlerInvoked) := by
  induction d with
  | zero =>
    intro c hdecl hok
    rw [next_eq_handler c _ (by simpa using hok)]
    simp [invoke_handler, List.range'_one]
  | succ d ih =>
    intro c hdecl hok
    have h0 : c.chain[c.pos]? = some handler_behavior_t.declines :=
      hdecl c.pos le_rfl (by omega)
    have hrec := ih { c with pos := c.pos + 1 }
      (by
        intro j hj1 hj2
        simp only at hj1 hj2
        exact hdecl j (by omega) (by omega))
      (by
        show c.chain[c.pos + 1 + d]? = some handler_behavior_t.completes
        rw [show c.pos + 1 + d = c.pos + (d + 1) from by omega]
        exact hok)
    rw [next_eq_handler c _ h0]
    simp only [invoke_handler, hrec]
    simp [List.range'_succ]

/-- C1: if the controller's `on_next()` yields the Handler variant and the
invoked handler returns `failure`, the driver synthesizes and sends
exactly one internal-server-error response, bound to the request handle
captured from the controller before the handler was invoked (which equals
`c.request_handle`), and no further handler is invoked in this driver
invocation: the whole trace is the one handler invocation followed by the
single internal-server-error response. -/
theorem failure_sends_one_internal_server_error
    (c : async_handling_controller_t Req)
    (h : c.chain[c.pos]? = some handler_behavior_t.failsToSchedule) :
    next (some c) =
      some [ChainEvent.handlerInvoked c.pos,
        ChainEvent.responseSent c.request_handle status_internal_server_error] := by
  rw [next_eq_handler c _ h]
  simp [invoke_handler]

theorem failure_sends_one_internal_server_error_witness :
    next (some (⟨7, [handler_behavior_t.failsToSchedule], 0⟩ :
        async_handling_controller_t Nat)) =
      some [ChainEvent.handlerInvoked 0,
        ChainEvent.responseSent 7 status_internal_server_error] :=
  failure_sends_one_internal_server_error
    ⟨7, [handler_behavior_t.failsToSchedule], 0⟩ (by decide)

/-- C2: if the controller's `on_next()` yields the Exhausted variant (in
particular for an empty chain, where no handler exists at position 0),
the driver synthesizes and sends exactly one not-found response against
the controller's request handle; the trace contains no handler
invocation. -/
theorem exhausted_sends_one_not_found
    (c : async_handling_controller_t Req)
    (h : c.chain[c.pos]? = none) :
    next (some c) =
      some [ChainEvent.responseSent c.request_handle status_not_found] :=
  next_eq_exhausted c h

theorem exhausted_sends_one_not_found_witness :
    next (some (⟨3, [], 0⟩ : async_handling_controller_t Nat)) =
      some [ChainEvent.responseSent 3 status_not_found] :=
  exhausted_sends_one_not_found ⟨3, [], 0⟩ (by decide)

/-- C3: across one chain traversal, including all recursive re-entrant
calls of the driver made by synchronously declining handlers, the core
performs at most one response-producing operation, and it never sends
both the not-found response and the internal-server-error response. -/
theorem at_most_one_response_per_traversal
    (c : async_handling_controller_t Req) (t : List (ChainEvent Req))
    (h : next (some c) = some t) :
    responseCount t ≤ 1 ∧
      ∀ r r' : Req, ChainEvent.responseSent r status_not_found ∈ t →
        ChainEvent.responseSent r' status_internal_server_error ∈ t → False := by
  have hmain := next_responses_aux (c.chain.length - c.pos) c t le_rfl h
  refine ⟨hmain.1, ?_⟩
  intro r r' h1 h2
  have hcount := two_le_countP_of_mem isResponseEvent t _ _ h1 h2
    (by simp [status_not_found, status_internal_server_error]) rfl rfl
  have hle := hmain.1
  simp only [responseCount] at hle
  omega

theorem at_most_one_response_per_traversal_witness :
    responseCount [ChainEvent.responseSent (3 : Nat) status_not_found] ≤ 1 :=
  (at_most_one_response_per_traversal ⟨3, [], 0⟩ _ (next_eq_exhausted _ rfl)).1

/-- C4: if the invoked handler returns `ok`, the driver takes no further
action: the trace consists of that single handler invocation only — no
response is synthesized, the captured request handle is not used, and no
other handler is invoked (a continuation would only come from the handler
itself re-entering the driver, which a `completes` handler does not
do). -/
theorem ok_outcome_no_further_action
    (c : async_handling_controller_t Req)
    (h : c.chain[c.pos]? = some handler_behavior_t.completes) :
    next (some c) = some [ChainEvent.handlerInvoked c.pos] := by
  rw [next_eq_handler c _ h]
  simp [invoke_handler]

theorem ok_outcome_no_further_action_witness :
    next (some (⟨4, [handler_behavior_t.completes], 0⟩ :
        async_handling_controller_t Nat)) =
      some [ChainEvent.handlerInvoked 0] :=
  ok_outcome_no_further_action ⟨4, [handler_behavior_t.completes], 0⟩ (by decide)

/-- C5: in the Handler-variant branch the driver captures the request
handle from the controller strictly before invoking the handler, moves
the controller into the handler, and after the handler call uses only the
captured handle.  In the model the moved-from `unique_ptr` is `none`, and
any later controller dereference would make the driver return `none`;
the theorem shows that for every handler the driver nevertheless
completes, and that its result is assembled from the handler's own
outcome plus (on `failure`) a response bound to the handle value
`c.request_handle` that was captured before the invocation. -/
theorem handle_captured_before_handler_invocation
    (c : async_handling_controller_t Req) (b : handler_behavior_t)
    (h : c.chain[c.pos]? = some b) :
    ∃ tr res, invoke_handler c.pos b { c with pos := c.pos + 1 } = some (tr, res) ∧
      next (some c) =
        some (tr ++
          match res with
          | schedule_result_t.ok => []
          | schedule_result_t.failure =>
              [ChainEvent.responseSent c.request_handle
                status_internal_server_error]) := by
  obtain ⟨tr, res, hi⟩ := invoke_handler_isSome c.pos b { c with pos := c.pos + 1 }
  refine ⟨tr, res, hi, ?_⟩
  rw [next_eq_handler c b h, hi]
  cases res <;> simp

theorem handle_captured_before_handler_invocation_witness :
    next (some (⟨9, [handler_behavior_t.failsToSchedule], 0⟩ :
        async_handling_controller_t Nat)) =
      some [ChainEvent.handlerInvoked 0,
        ChainEvent.responseSent 9 status_internal_server_error] := by
  obtain ⟨tr, res, hi, hn⟩ := handle_captured_before_handler_invocation
    (⟨9, [handler_behavior_t.failsToSchedule], 0⟩ : async_handling_controller_t Nat)
    handler_behavior_t.failsToSchedule (by decide)
  simp only [invoke_handler] at hi
  injection hi with hi
  have h1 : tr = [ChainEvent.handlerInvoked 0] := (congrArg Prod.fst hi).symm
  have h2 : res = schedule_result_t.failure := (congrArg Prod.snd hi).symm
  subst h1
  subst h2
  rw [hn]
  rfl

/-- C6: the core never propagates an error by throwing across the chain
boundary: in the model the driver is a total function on valid
controllers (it always returns a trace), errors being ordinary
`schedule_result_t` values inspected locally; and every response the core
itself synthesizes targets the request handle of the traversed controller
and carries one of exactly two statuses — not-found (on exhaustion) or
internal-server-error (on scheduling failure).  No other response is ever
emitted by the core. -/
theorem only_two_synthesized_responses (c : async_handling_controller_t Req) :
    (∃ t, next (some c) = some t) ∧
      ∀ t, next (some c) = some t →
        ∀ r s, ChainEvent.responseSent r s ∈ t →
          r = c.request_handle ∧
            (s = status_not_found ∨ s = status_internal_server_error) := by
  refine ⟨next_isSome c, ?_⟩
  intro t ht
  exact (next_responses_aux (c.chain.length - c.pos) c t le_rfl ht).2

theorem only_two_synthesized_responses_witness :
    (3 : Nat) = 3 ∧
      (status_not_found = status_not_found ∨
        status_not_found = status_internal_server_error) :=
  (only_two_synthesized_responses
      (⟨3, [], 0⟩ : async_handling_controller_t Nat)).2
    [ChainEvent.responseSent 3 status_not_found]
    (next_eq_exhausted _ rfl) 3 status_not_found (by simp)

/-- C7: for a chain in which handlers `0 .. i-1` synchronously re-enter
the driver with the advanced controller and handler `i` is the first to
accept the request by returning `ok` without re-entering, the driver
trace is exactly the invocations of handlers `0 .. i`, each exactly once,
in the chain's declared order; no handler after `i` is invoked and no
response is synthesized by the core. -/
theorem handlers_invoked_in_order_until_ok
    (req : Req) (chain : List handler_behavior_t) (i : Nat)
    (hdecl : ∀ j, j < i → chain[j]? = some handler_behavior_t.declines)
    (hok : chain[i]? = some handler_behavior_t.completes) :
    next (some (⟨req, chain, 0⟩ : async_handling_controller_t Req)) =
      some ((List.range (i + 1)).map ChainEvent.handlerInvoked) := by
  have h := next_declines_then_completes i
    (⟨req, chain, 0⟩ : async_handling_controller_t Req)
    (fun j _ hj2 => hdecl j (by simpa using hj2)) (by simpa using hok)
  simpa [List.range_eq_range'] using h

theorem handlers_invoked_in_order_until_ok_witness :
    next (some (⟨5, [handler_behavior_t.declines, handler_behavior_t.completes], 0⟩ :
        async_handling_controller_t Nat)) =
      some [ChainEvent.handlerInvoked 0, ChainEvent.handlerInvoked 1] :=
  handlers_invoked_in_order_until_ok 5
    [handler_behavior_t.declines, handler_behavior_t.completes] 1
    (by
      intro j hj
      have hj0 : j = 0 := by omega
      subst hj0
      decide)
    (by decide)

/-- C9: on the exhausted path the controller is never consumed: `on_next`
returns the no-more-handlers marker together with the still-owned,
unchanged controller, and the driver then reads `request_handle()` from
that post-`on_next` controller — the read succeeds (the driver returns
`some`, i.e. no moved-from pointer is dereferenced), and the controller
remains owned by the driver until the invocation returns. -/
theorem exhausted_path_controller_not_consumed
    (c : async_handling_controller_t Req)
    (h : c.chain[c.pos]? = none) :
    on_next c = (on_next_result_t.no_more_handlers, c) ∧
      next (some c) =
        some [ChainEvent.responseSent ((on_next c).2).request_handle
          status_not_found] := by
  have ho : on_next c = (on_next_result_t.no_more_handlers, c) := by
    rw [on_next, h]
  exact ⟨ho, by rw [next_eq_exhausted c h, ho]⟩

theorem exhausted_path_controller_not_consumed_witness :
    on_next (⟨2, [], 0⟩ : async_handling_controller_t Nat) =
        (on_next_result_t.no_more_handlers, ⟨2, [], 0⟩) ∧
      next (some (⟨2, [], 0⟩ : async_handling_controller_t Nat)) =
        some [ChainEvent.responseSent
          ((on_next (⟨2, [], 0⟩ : async_handling_controller_t Nat)).2).request_handle
          status_not_found] :=
  exhausted_path_controller_not_consumed ⟨2, [], 0⟩ (by decide)

end Restinio.AsyncChain

namespace Sample

/-- Characterization of `sv_find` returning an index: the pattern occurs
there and at no earlier position. -/
theorem sv_find_eq_some_iff (pat : List Char) :
    ∀ (l : List Char) (n : Nat),
      sv_find pat l = some n ↔
        (pat <+: l.drop n ∧ ∀ k, k < n → ¬ pat <+: l.drop k) := by
  intro l
  induction l with
  | nil =>
    intro n
    by_cases hp : pat.isPrefixOf ([] : List Char)
    · have hp2 : pat <+: [] := List.isPrefixOf_iff_prefix.mp hp
      simp only [sv_find, if_pos hp]
      constructor
      · intro h
        injection h with h
        subst h
        exact ⟨by simpa using hp2, fun k hk => absurd hk (by omega)⟩
      · rintro ⟨h1, h2⟩
        cases n with
        | zero => rfl
        | succ m => exact absurd (by simpa using hp2) (h2 0 (by omega))
    · have hp2 : ¬ pat <+: [] := fun h => hp (List.isPrefixOf_iff_prefix.mpr h)
      simp only [sv_find, if_neg hp]
      constructor
      · intro h
        exact Option.noConfusion h
      · rintro ⟨h1, h2⟩
        exact absurd (by simpa using h1) hp2
  | cons c rest ih =>
    intro n
    by_cases hp : pat.isPrefixOf (c :: rest)
    · have hp2 : pat <+: c :: rest := List.isPrefixOf_iff_prefix.mp hp
      simp only [sv_find, if_pos hp]
      constructor
      · intro h
        injection h with h
        subst h
        exact ⟨by simpa using hp2, fun k hk => absurd hk (by omega)⟩
      · rintro ⟨h1, h2⟩
        cases n with
        | zero => rfl
        | succ m => exact absurd (by simpa using hp2) (h2 0 (by omega))
    · have hp2 : ¬ pat <+: c :: rest := fun h => hp (List.isPrefixOf_iff_prefix.mpr h)
      simp only [sv_find, if_neg hp]
      cases n with
      | zero =>
        constructor
        · intro h
          rcases Option.map_eq_some'.mp h with ⟨a, _, hae⟩
          omega
        · rintro ⟨h1, _⟩
          exact absurd (by simpa using h1) hp2
      | succ m =>
        constructor
        · intro h
          rcases Option.map_eq_some'.mp h with ⟨a, ha, hae⟩
          have ham : a = m := by omega
          rw [ham] at ha
          obtain ⟨h1, h2⟩ := (ih m).mp ha
          refine ⟨by simpa using h1, ?_⟩
          intro k hk
          cases k with
          | zero => simpa using hp2
          | succ j => simpa using h2 j (by omega)
        · rintro ⟨h1, h2⟩
          have hm : sv_find pat rest = some m := (ih m).mpr
            ⟨by simpa using h1, fun j hj => by simpa using h2 (j + 1) (by omega)⟩
          rw [hm]
          rfl

/-- Characterization of `sv_find` returning `npos`: the pattern occurs
at no position. -/
theorem sv_find_eq_none_iff (pat : List Char) :
    ∀ l : List Char, sv_find pat l = none ↔ ∀ k, ¬ pat <+: l.drop k := by
  intro l
  induction l with
  | nil =>
    by_cases hp : pat.isPrefixOf ([] : List Char)
    · have hp2 : pat <+: [] := List.isPrefixOf_iff_prefix.mp hp
      simp only [sv_find, if_pos hp]
      constructor
      · intro h
        exact Option.noConfusion h
      · intro h
        exact absurd (by simpa using hp2) (h 0)
    · have hp2 : ¬ pat <+: [] := fun h => hp (List.isPrefixOf_iff_prefix.mpr h)
      simp only [sv_find, if_neg hp]
      exact ⟨fun _ k => by simpa using hp2, fun _ => by trivial⟩
  | cons c rest ih =>
    by_cases hp : pat.isPrefixOf (c :: rest)
    · have hp2 : pat <+: c :: rest := List.isPrefixOf_iff_prefix.mp hp
      simp only [sv_find, if_pos hp]
      constructor
      · intro h
        exact Option.noConfusion h
      · intro h
        exact absurd (by simpa using hp2) (h 0)
    · have hp2 : ¬ pat <+: c :: rest := fun h => hp (List.isPrefixOf_iff_prefix.mpr h)
      simp only [sv_find, if_neg hp]
      rw [Option.map_eq_none', ih]
      constructor
      · intro h k
        cases k with
        | zero => simpa using hp2
        | succ j => simpa using h j
      · intro h j
        simpa using h (j + 1)

/-- An infix occurrence is a prefix occurrence at some dropped
position. -/
theorem infix_iff_drop (p l : List Char) : p <:+: l ↔ ∃ k, p <+: l.drop k := by
  constructor
  · rintro ⟨s, t, rfl⟩
    refine ⟨s.length, ?_⟩
    rw [List.append_assoc, List.drop_left]
    exact List.prefix_append p t
  · rintro ⟨k, t, ht⟩
    exact ⟨l.take k, t, by rw [List.append_assoc, ht, List.take_append_drop]⟩

/-- `sv_find` returns `npos` exactly when the pattern is not an infix. -/
theorem sv_find_eq_none_iff_infix_free (pat l : List Char) :
    sv_find pat l = none ↔ ¬ pat <:+: l := by
  rw [sv_find_eq_none_iff pat l, infix_iff_drop]
  constructor
  · rintro h ⟨k, hk⟩
    exact h k hk
  · intro h k hk
    exact h ⟨k, hk⟩

/-- If the separator occurs as a prefix of `D ++ separator ++ R` with `D`
non-empty, then either it already occurs inside `D`, or the occurrence
straddles the boundary, which forces `D` to end with a semicolon. -/
theorem sep_prefix_split (D R : List Char) (hD : D ≠ [])
    (h : separator <+: D ++ (separator ++ R)) :
    separator <:+: D ∨ D.getLast? = some ';' := by
  rcases D with _ | ⟨c1, D⟩
  · exact absurd rfl hD
  rcases D with _ | ⟨c2, D⟩
  · right
    simp only [separator, List.cons_append, List.nil_append] at h
    obtain ⟨hc, _⟩ := List.cons_prefix_cons.mp h
    subst hc
    rfl
  rcases D with _ | ⟨c3, D⟩
  · right
    simp only [separator, List.cons_append, List.nil_append] at h
    obtain ⟨hc1, h⟩ := List.cons_prefix_cons.mp h
    obtain ⟨hc2, _⟩ := List.cons_prefix_cons.mp h
    subst hc2
    rfl
  · left
    simp only [separator, List.cons_append, List.nil_append] at h
    obtain ⟨hc1, h⟩ := List.cons_prefix_cons.mp h
    obtain ⟨hc2, h⟩ := List.cons_prefix_cons.mp h
    obtain ⟨hc3, _⟩ := List.cons_prefix_cons.mp h
    subst hc1
    subst hc2
    subst hc3
    exact ⟨[], D, by simp [separator]⟩

/-- If the separator first occurs in `l` at position `n`, then the part
of `l` before `n` contains no separator, does not end with a semicolon,
and `l` decomposes as that part, the separator, and the rest. -/
theorem clean_of_min (l : List Char) (n : Nat)
    (hpre : separator <+: l.drop n)
    (hmin : ∀ k, k < n → ¬ separator <+: l.drop k) :
    ¬ separator <:+: l.take n ∧ (l.take n).getLast? ≠ some ';' ∧
      l = l.take n ++ (separator ++ l.drop (n + separator.length)) := by
  have hlen : n < l.length := by
    by_contra hc
    push_neg at hc
    rw [List.drop_eq_nil_of_le hc] at hpre
    rw [List.prefix_nil] at hpre
    simp [separator] at hpre
  refine ⟨?_, ?_, ?_⟩
  · intro hinf
    obtain ⟨k, hk⟩ := (infix_iff_drop _ _).mp hinf
    have hkn : k < n := by
      by_contra hc
      push_neg at hc
      have hnil : (l.take n).drop k = [] :=
        List.drop_eq_nil_of_le (by rw [List.length_take]; omega)
      rw [hnil] at hk
      rw [List.prefix_nil] at hk
      simp [separator] at hk
    have hsub : (l.take n).drop k <+: l.drop k := by
      rw [List.drop_take]
      exact List.take_prefix _ _
    exact hmin k hkn (hk.trans hsub)
  · intro hlast
    have hne : l.take n ≠ [] := by
      intro he
      rw [he] at hlast
      exact Option.noConfusion hlast
    have hn1 : 1 ≤ n := by
      rcases Nat.eq_zero_or_pos n with h0 | h1
      · rw [h0] at hne
        simp at hne
      · exact h1
    have hlA : (l.take n).length = n := by
      rw [List.length_take]
      omega
    have hd1 : (l.take n).drop (n - 1) = [';'] := by
      have hlen1 : ((l.take n).drop (n - 1)).length = 1 := by
        rw [List.length_drop, hlA]
        omega
      obtain ⟨x, hx⟩ := List.length_eq_one.mp hlen1
      have hgl : (l.take n).getLast? = ((l.take n).drop (n - 1)).getLast? := by
        conv_lhs => rw [← List.take_append_drop (n - 1) (l.take n)]
        rw [List.getLast?_append_of_ne_nil _ (by rw [hx]; exact List.noConfusion)]
      rw [hlast, hx] at hgl
      have hxe : x = ';' := by simpa using hgl.symm
      rw [hx, hxe]
    have hsplit : l.drop (n - 1) = (l.take n).drop (n - 1) ++ l.drop n := by
      conv_lhs => rw [← List.take_append_drop n l]
      rw [List.drop_append_eq_append_drop, hlA,
        show n - 1 - n = 0 from by omega, List.drop_zero]
    have hocc : separator <+: l.drop (n - 1) := by
      rw [hsplit, hd1]
      obtain ⟨t, ht⟩ := hpre
      rw [← ht]
      exact ⟨';' :: t, by simp [separator]⟩
    exact hmin (n - 1) (by omega) hocc
  · obtain ⟨t, ht⟩ := hpre
    have ht3 : l.drop (n + separator.length) = t := by
      rw [← List.drop_drop, ← ht, List.drop_left]
    conv_lhs => rw [← List.take_append_drop n l]
    rw [← ht, ht3]

/-- If `A` contains no separator and does not end with a semicolon, the
first separator occurrence in `A ++ separator ++ R` is exactly at
position `A.length`. -/
theorem sep_first_occurrence (A R : List Char) (hA : A ≠ [])
    (hinf : ¬ separator <:+: A) (hlast : A.getLast? ≠ some ';') :
    sv_find separator (A ++ (separator ++ R)) = some A.length := by
  rw [sv_find_eq_some_iff]
  constructor
  · rw [List.drop_left]
    exact List.prefix_append separator R
  · intro k hk
    have hd : (A ++ (separator ++ R)).drop k = A.drop k ++ (separator ++ R) := by
      rw [List.drop_append_eq_append_drop,
        show k - A.length = 0 from by omega, List.drop_zero]
    rw [hd]
    intro hpre
    have hAk : A.drop k ≠ [] := by
      intro he
      have := List.drop_eq_nil_iff.mp he
      omega
    rcases sep_prefix_split (A.drop k) R hAk hpre with hcase | hcase
    · exact hinf (hcase.trans (List.drop_suffix k A).isInfix)
    · refine hlast ?_
      have hgl : A.getLast? = (A.drop k).getLast? := by
        conv_lhs => rw [← List.take_append_drop k A]
        rw [List.getLast?_append_of_ne_nil _ hAk]
      rw [hgl, hcase]

/-- Builder direction: every body of the accepted shape parses to the
corresponding book. -/
theorem deserialize_eq_some_of_accepted (body A T : List Char)
    (h : accepted_form body A T) :
    deserialize body = some { m_author := A, m_title := T } := by
  obtain ⟨hA, hT, hAinf, hAlast, hTinf, hbody⟩ := h
  have hAlen : ¬ A.length = 0 := fun h0 => hA (List.length_eq_zero.mp h0)
  rcases hbody with hb | ⟨hb, hTlast⟩
  · subst hb
    have hassoc : author_tag ++ A ++ separator ++ title_tag ++ T
        = author_tag ++ (A ++ (separator ++ (title_tag ++ T))) := by
      simp [List.append_assoc]
    rw [hassoc]
    have h1 : (author_tag ++ (A ++ (separator ++ (title_tag ++ T)))).take
        author_tag.length = author_tag := List.take_left _ _
    have h2 : (author_tag ++ (A ++ (separator ++ (title_tag ++ T)))).drop
        author_tag.length = A ++ (separator ++ (title_tag ++ T)) :=
      List.drop_left _ _
    have h3 : sv_find separator (A ++ (separator ++ (title_tag ++ T))) =
        some A.length := sep_first_occurrence A (title_tag ++ T) hA hAinf hAlast
    have h4 : (A ++ (separator ++ (title_tag ++ T))).take A.length = A :=
      List.take_left _ _
    have h5 : (A ++ (separator ++ (title_tag ++ T))).drop
        (A.length + separator.length) = title_tag ++ T := by
      rw [show A.length + separator.length = (A ++ separator).length from by simp]
      rw [show A ++ (separator ++ (title_tag ++ T))
          = (A ++ separator) ++ (title_tag ++ T) from by simp [List.append_assoc]]
      exact List.drop_left _ _
    have h6 : (title_tag ++ T).take title_tag.length = title_tag :=
      List.take_left _ _
    have h7 : (title_tag ++ T).drop title_tag.length = T := List.drop_left _ _
    have h8 : sv_find separator T = none :=
      (sv_find_eq_none_iff_infix_free _ _).mpr hTinf
    simp [deserialize, h1, h2, h3, h4, h5, h6, h7, h8, hAlen, hT]
  · subst hb
    have hTlen : ¬ T.length = 0 := fun h0 => hT (List.length_eq_zero.mp h0)
    have hassoc : author_tag ++ A ++ separator ++ title_tag ++ T ++ separator
        = author_tag ++ (A ++ (separator ++ (title_tag ++ (T ++ separator)))) := by
      simp [List.append_assoc]
    rw [hassoc]
    have h1 : (author_tag ++ (A ++ (separator ++ (title_tag ++ (T ++ separator))))).take
        author_tag.length = author_tag := List.take_left _ _
    have h2 : (author_tag ++ (A ++ (separator ++ (title_tag ++ (T ++ separator))))).drop
        author_tag.length = A ++ (separator ++ (title_tag ++ (T ++ separator))) :=
      List.drop_left _ _
    have h3 : sv_find separator (A ++ (separator ++ (title_tag ++ (T ++ separator)))) =
        some A.length :=
      sep_first_occurrence A (title_tag ++ (T ++ separator)) hA hAinf hAlast
    have h4 : (A ++ (separator ++ (title_tag ++ (T ++ separator)))).take A.length = A :=
      List.take_left _ _
    have h5 : (A ++ (separator ++ (title_tag ++ (T ++ separator)))).drop
        (A.length + separator.length) = title_tag ++ (T ++ separator) := by
      rw [show A.length + separator.length = (A ++ separator).length from by simp]
      rw [show A ++ (separator ++ (title_tag ++ (T ++ separator)))
          = (A ++ separator) ++ (title_tag ++ (T ++ separator)) from by
        simp [List.append_assoc]]
      exact List.drop_left _ _
    have h6 : (title_tag ++ (T ++ separator)).take title_tag.length = title_tag :=
      List.take_left _ _
    have h7 : (title_tag ++ (T ++ separator)).drop title_tag.length = T ++ separator :=
      List.drop_left _ _
    have hb3 : T ++ separator ≠ [] := by simp [separator]
    have h8 : sv_find separator (T ++ separator) = some T.length := by
      have := sep_first_occurrence T [] hT hTinf hTlast
      simpa using this
    have h9 : (T ++ separator).take T.length = T := List.take_left _ _
    have h10 : (T ++ separator).drop (T.length + separator.length) = [] :=
      List.drop_eq_nil_of_le (by simp)
    simp [deserialize, h1, h2, h3, h4, h5, h6, h7, h8, h9, h10, hAlen, hTlen, hb3]

/-- Analysis direction: every successfully parsed body has the accepted
shape, with the parsed fields. -/
theorem accepted_of_deserialize_eq_some (body A T : List Char)
    (h : deserialize body = some { m_author := A, m_title := T }) :
    accepted_form body A T := by
  simp only [deserialize] at h
  split at h
  case isFalse => exact absurd h (by simp)
  case isTrue hcond =>
    split at h
    case h_1 hfind => exact absurd h (by simp)
    case h_2 n hfind =>
      split at h
      case isTrue => exact absurd h (by simp)
      case isFalse hn0 =>
        split at h
        case isFalse => exact absurd h (by simp)
        case isTrue hcond2 =>
          split at h
          case isTrue => exact absurd h (by simp)
          case isFalse hb3 =>
            have hbody1 : body = author_tag ++ body.drop author_tag.length := by
              conv_lhs => rw [← List.take_append_drop author_tag.length body]
              rw [← hcond]
            obtain ⟨hpre, hmin⟩ := (sv_find_eq_some_iff separator _ n).mp hfind
            obtain ⟨hAinf, hAlast, hdecomp⟩ := clean_of_min _ n hpre hmin
            have hAne : (body.drop author_tag.length).take n ≠ [] := by
              intro he
              rcases List.take_eq_nil_iff.mp he with he | he
              · exact hn0 he
              · rw [he] at hpre
                rw [List.drop_nil, List.prefix_nil] at hpre
                simp [separator] at hpre
            have hbody2 : (body.drop author_tag.length).drop (n + separator.length)
                = title_tag ++ ((body.drop author_tag.length).drop
                    (n + separator.length)).drop title_tag.length := by
              conv_lhs => rw [← List.take_append_drop title_tag.length
                ((body.drop author_tag.length).drop (n + separator.length))]
              rw [← hcond2]
            split at h
            case h_1 hfind2 =>
              injection h with h
              rw [book_t.mk.injEq] at h
              obtain ⟨hAeq, hTeq⟩ := h
              subst hAeq
              subst hTeq
              refine ⟨hAne, hb3, hAinf, hAlast,
                (sv_find_eq_none_iff_infix_free separator _).mp hfind2, Or.inl ?_⟩
              conv_lhs => rw [hbody1]; rw [hdecomp]; rw [hbody2]
              simp [List.append_assoc]
            case h_2 m hfind2 =>
              split at h
              case isTrue => exact absurd h (by simp)
              case isFalse hm0 =>
                split at h
                case isFalse => exact absurd h (by simp)
                case isTrue hb4 =>
                  injection h with h
                  rw [book_t.mk.injEq] at h
                  obtain ⟨hAeq, hTeq⟩ := h
                  subst hAeq
                  subst hTeq
                  obtain ⟨hpre2, hmin2⟩ :=
                    (sv_find_eq_some_iff separator _ m).mp hfind2
                  obtain ⟨hTinf, hTlast, hdecomp2⟩ := clean_of_min _ m hpre2 hmin2
                  rw [hb4, List.append_nil] at hdecomp2
                  have hTne : (((body.drop author_tag.length).drop
                      (n + separator.length)).drop title_tag.length).take m ≠ [] := by
                    intro he
                    rcases List.take_eq_nil_iff.mp he with he | he
                    · exact hm0 he
                    · exact hb3 he
                  refine ⟨hAne, hTne, hAinf, hAlast, hTinf, Or.inr ⟨?_, hTlast⟩⟩
                  conv_lhs => rw [hbody1]; rw [hdecomp]; rw [hbody2]; rw [hdecomp2]
                  simp [List.append_assoc]

/-- C10 counterexample: the body `author:x;;;;;title:t` has exactly the
shape asserted by the claim — it is `author:` ++ A ++ `;;;` ++ `title:`
++ T with A = `x;;` and T = `t`, both non-empty and neither containing
`;;;` — yet `deserialize` throws on it: the author field ends with
semicolons, so the first `;;;` occurrence found straddles the boundary
between A and the separator and the parse goes wrong.  This refutes the
claim's "if and only if". -/
theorem deserialize_claim_counterexample :
    deserialize
        ['a', 'u', 't', 'h', 'o', 'r', ':', 'x', ';', ';', ';', ';', ';',
         't', 'i', 't', 'l', 'e', ':', 't'] = none ∧
      ['a', 'u', 't', 'h', 'o', 'r', ':', 'x', ';', ';', ';', ';', ';',
       't', 'i', 't', 'l', 'e', ':', 't'] =
        author_tag ++ ['x', ';', ';'] ++ separator ++ title_tag ++ ['t'] ∧
      (['x', ';', ';'] : List Char) ≠ [] ∧ (['t'] : List Char) ≠ [] ∧
      ¬ separator <:+: ['x', ';', ';'] ∧ ¬ separator <:+: ['t'] := by
  decide

/-- C10 (amended): `deserialize` returns without throwing exactly on the
bodies of the `accepted_form` shape — `author:` ++ A ++ `;;;` ++
`title:` ++ T, optionally followed by exactly one trailing `;;;`, where
A and T are non-empty and contain no `;;;`, and additionally A does not
end with `';'` (and, in the trailing-separator shape, T does not end
with `';'` either); in that case it returns the book (A, T). -/
theorem deserialize_characterization (body A T : List Char) :
    deserialize body = some { m_author := A, m_title := T } ↔
      accepted_form body A T :=
  ⟨accepted_of_deserialize_eq_some body A T,
    deserialize_eq_some_of_accepted body A T⟩

end Sample
